import Mathlib

/-!
# Verification of the bevy-clouds procedural noise subsystem

Shallow embedding of `src/main.rs`: the CPU noise bake performed by
`update_material_system` (tiled cellular/Worley noise over a 32^3 voxel
grid), the `CloudSettings` resource, the egui parameter panel
(`ui_system`) and the per-tick material synchronisation.

Floating-point (`f32`) arithmetic of the source is embedded as exact real
arithmetic; `u8`/`u32` values are embedded as `ℤ`/`ℕ`.
-/

namespace BevyClouds

/-- The `Vec3` type of the source, embedded as a function `Fin 3 → ℝ`. -/
abbrev Vec3 := Fin 3 → ℝ

/-- Euclidean distance between two `Vec3`s (`Vec3::distance`). -/
noncomputable def dist3 (a b : Vec3) : ℝ :=
  Real.sqrt (∑ i, (a i - b i) ^ 2)

/-- The offset values `-1..=1` iterated by each of the three tiling loops. -/
noncomputable def offsetVals : List ℝ := [-1, 0, 1]

/-- The 27 tiling offsets `Vec3::new(ox, oy, oz)` for
`oz, oy, ox ∈ {-1, 0, 1}`, in the nesting order of the source
(`oz` outermost, `ox` innermost). -/
noncomputable def offsets : List Vec3 :=
  offsetVals.flatMap fun oz =>
    offsetVals.flatMap fun oy =>
      offsetVals.map fun ox => ![ox, oy, oz]

/-- All candidate distances examined by the inner loops for a normalized
sample position `p`: for each feature point and each of the 27 offsets,
`p.distance((*point + offset) * freq)` with `p` pre-scaled by `freq`. -/
noncomputable def allDists (p : Vec3) (points : List Vec3) (freq : ℝ) : List ℝ :=
  points.flatMap fun q =>
    offsets.map fun o => dist3 (freq • p) (freq • (q + o))

/-- The `min_dist` accumulator: initialized to `10.0`, then folded with
`if dist < min_dist { min_dist = dist }` over all candidates. -/
noncomputable def minDistOf (p : Vec3) (points : List Vec3) (freq : ℝ) : ℝ :=
  (allDists p points freq).foldl min 10

/-- The density of one voxel before quantization:
`1.0 - min_dist.min(1.0)`. -/
noncomputable def densityAt (p : Vec3) (points : List Vec3) (freq : ℝ) : ℝ :=
  1 - min (minDistOf p points freq) 1

/-- Rust's saturating float-to-`u8` cast (`val as u8`): truncate toward
zero, clamping into `[0, 255]`.  For `v ≥ 0` truncation is `⌊v⌋`, and for
`v < 0` the clamp at `0` agrees with the saturating cast. -/
noncomputable def toU8 (v : ℝ) : ℤ :=
  min 255 (max 0 ⌊v⌋)

/-- The byte stored for one voxel:
`val = (1.0 - min_dist.min(1.0)) * 255.0; data.push(val as u8)`. -/
noncomputable def bakedByte (p : Vec3) (points : List Vec3) (freq : ℝ) : ℤ :=
  toU8 (densityAt p points freq * 255)

/-- Normalization of a grid coordinate: `fx = x as f32 / size as f32`. -/
noncomputable def voxelCoord (i : ℕ) : ℝ := (i : ℝ) / 32

/-- The full bake of the 32×32×32 volume, `z` outermost and `x` innermost
(row-major, `x` fastest), each grid coordinate normalized by `1/32`. -/
noncomputable def bakeData (points : List Vec3) (freq : ℝ) : List ℤ :=
  (List.range 32).flatMap fun z =>
    (List.range 32).flatMap fun y =>
      (List.range 32).map fun x =>
        bakedByte ![voxelCoord x, voxelCoord y, voxelCoord z] points freq

/-- Modelled from the spec: one step of the seeded deterministic
pseudo-random stream.  The source uses `ChaCha8Rng::seed_from_u64` from
the external `rand_chacha` crate (not part of this repository); per
spec §4.1 it is a pure seeded stream, modelled here as a linear
congruential step on a 32-bit state. -/
def rngNext (s : ℕ) : ℕ := (1664525 * s + 1013904223) % 2 ^ 32

/-- Modelled from the spec: one draw of `rng.gen_range(0.0..1.0)`,
mapping the current stream state to a coordinate in `[0, 1)`. -/
noncomputable def rngUnit (s : ℕ) : ℝ := ((s % 2 ^ 24 : ℕ) : ℝ) / 2 ^ 24

/-- Modelled from the spec: draw `n` feature points, three coordinate
draws per point, threading the stream state. -/
noncomputable def genPointsAux : ℕ → ℕ → List Vec3
  | _, 0 => []
  | s, n + 1 =>
    let s1 := rngNext s
    let s2 := rngNext s1
    let s3 := rngNext s2
    ![rngUnit s1, rngUnit s2, rngUnit s3] :: genPointsAux s3 n

/-- Modelled from the spec: `FeaturePointGenerator.generate(seed, count)`,
a pure function of the seed (`ChaCha8Rng::seed_from_u64(seed as u64)`)
producing `count` points in `[0,1)^3`. -/
noncomputable def genPoints (seed count : ℕ) : List Vec3 :=
  genPointsAux (seed % 2 ^ 32) count

/-- One bake from a parameter snapshot: generate the feature points once
from the seed, then fill the 32^3 byte volume. -/
noncomputable def bakeVolume (seed : ℕ) (freq : ℝ) (count : ℕ) : List ℤ :=
  bakeData (genPoints seed count) freq

/-! ## Helper lemmas about `foldl min` -/

theorem foldlMin_le_init (a : ℝ) (l : List ℝ) : l.foldl min a ≤ a := by
  induction l generalizing a with
  | nil => exact le_refl a
  | cons x xs ih => exact le_trans (ih (min a x)) (min_le_left a x)

theorem foldlMin_le_mem {x : ℝ} {l : List ℝ} (a : ℝ) (hx : x ∈ l) :
    l.foldl min a ≤ x := by
  induction l generalizing a with
  | nil => cases hx
  | cons y ys ih =>
    rcases List.mem_cons.mp hx with h | h
    · subst h
      rw [List.foldl_cons]
      exact le_trans (foldlMin_le_init (min a x) ys) (min_le_right a x)
    · rw [List.foldl_cons]
      exact ih (min a y) h

theorem le_foldlMin {c a : ℝ} {l : List ℝ} (h1 : c ≤ a) (h2 : ∀ x ∈ l, c ≤ x) :
    c ≤ l.foldl min a := by
  induction l generalizing a with
  | nil => exact h1
  | cons y ys ih =>
    exact ih (le_min h1 (h2 y (List.mem_cons_self y ys)))
      (fun x hx => h2 x (List.mem_cons_of_mem y hx))

theorem foldlMin_mem (a : ℝ) (l : List ℝ) :
    l.foldl min a = a ∨ l.foldl min a ∈ l := by
  induction l generalizing a with
  | nil => exact Or.inl rfl
  | cons y ys ih =>
    rcases ih (min a y) with h | h
    · rcases le_total a y with hay | hya
      · exact Or.inl (by rw [List.foldl_cons, h, min_eq_left hay])
      · exact Or.inr (by rw [List.foldl_cons, h, min_eq_right hya]; exact List.mem_cons_self y ys)
    · exact Or.inr (List.mem_cons_of_mem y h)

theorem foldlMin_eq_of_least {d a : ℝ} {l : List ℝ} (hmem : d ∈ l)
    (hle : ∀ x ∈ l, d ≤ x) (hda : d ≤ a) : l.foldl min a = d :=
  le_antisymm (foldlMin_le_mem a hmem) (le_foldlMin hda hle)

/-- Every nonempty list of reals has a least element. -/
theorem exists_list_min : ∀ (l : List ℝ), l ≠ [] → ∃ d ∈ l, ∀ x ∈ l, d ≤ x := by
  intro l
  induction l with
  | nil => intro h; exact absurd rfl h
  | cons y ys ih =>
    intro _
    rcases eq_or_ne ys [] with hys | hys
    · subst hys
      exact ⟨y, List.mem_cons_self y [], by intro x hx; simp at hx; simp [hx]⟩
    · obtain ⟨d, hd, hle⟩ := ih hys
      rcases le_total y d with hyd | hdy
      · refine ⟨y, List.mem_cons_self y ys, ?_⟩
        intro x hx
        rcases List.mem_cons.mp hx with h | h
        · simp [h]
        · exact le_trans hyd (hle x h)
      · refine ⟨d, List.mem_cons_of_mem y hd, ?_⟩
        intro x hx
        rcases List.mem_cons.mp hx with h | h
        · simp [h, hdy]
        · exact hle x h

/-! ## Membership characterizations -/

theorem mem_offsets {v : Vec3} :
    v ∈ offsets ↔ ∀ i, v i = -1 ∨ v i = 0 ∨ v i = 1 := by
  constructor
  · intro hv
    simp only [offsets, offsetVals, List.mem_flatMap, List.mem_map] at hv
    obtain ⟨oz, hoz, oy, hoy, ox, hox, rfl⟩ := hv
    intro i
    fin_cases i <;>
      simp only [Matrix.cons_val_zero, Matrix.cons_val_one, Matrix.head_cons,
        Matrix.cons_val_two, Matrix.tail_cons] <;>
      simp_all
  · intro h
    simp only [offsets, offsetVals, List.mem_flatMap, List.mem_map]
    refine ⟨v 2, ?_, v 1, ?_, v 0, ?_, ?_⟩
    · simpa using h 2
    · simpa using h 1
    · simpa using h 0
    · funext i
      fin_cases i <;> simp

theorem mem_allDists {p : Vec3} {points : List Vec3} {freq : ℝ} {d : ℝ} :
    d ∈ allDists p points freq ↔
      ∃ q ∈ points, ∃ o ∈ offsets, d = dist3 (freq • p) (freq • (q + o)) := by
  simp only [allDists, List.mem_flatMap, List.mem_map]
  constructor
  · rintro ⟨q, hq, o, ho, rfl⟩
    exact ⟨q, hq, o, ho, rfl⟩
  · rintro ⟨q, hq, o, ho, rfl⟩
    exact ⟨q, hq, o, ho, rfl⟩

theorem allDists_nonneg {p : Vec3} {points : List Vec3} {freq : ℝ} :
    ∀ d ∈ allDists p points freq, 0 ≤ d := by
  intro d hd
  obtain ⟨q, -, o, -, rfl⟩ := mem_allDists.mp hd
  exact Real.sqrt_nonneg _

/-! ## Range of the density and of the stored bytes -/

theorem minDistOf_nonneg (p : Vec3) (points : List Vec3) (freq : ℝ) :
    0 ≤ minDistOf p points freq :=
  le_foldlMin (by norm_num) allDists_nonneg

theorem densityAt_nonneg (p : Vec3) (points : List Vec3) (freq : ℝ) :
    0 ≤ densityAt p points freq := by
  have h : min (minDistOf p points freq) 1 ≤ 1 := min_le_right _ _
  unfold densityAt
  linarith

theorem densityAt_le_one (p : Vec3) (points : List Vec3) (freq : ℝ) :
    densityAt p points freq ≤ 1 := by
  have h : 0 ≤ min (minDistOf p points freq) 1 :=
    le_min (minDistOf_nonneg p points freq) (by norm_num)
  unfold densityAt
  linarith

theorem toU8_nonneg (v : ℝ) : 0 ≤ toU8 v :=
  le_min (by norm_num) (le_max_left 0 _)

theorem toU8_le (v : ℝ) : toU8 v ≤ 255 :=
  min_le_left _ _

theorem mem_bakeData {points : List Vec3} {freq : ℝ} {b : ℤ}
    (hb : b ∈ bakeData points freq) :
    ∃ z y x : ℕ, b = bakedByte ![voxelCoord x, voxelCoord y, voxelCoord z] points freq := by
  simp only [bakeData, List.mem_flatMap, List.mem_map, List.mem_range] at hb
  obtain ⟨z, -, y, -, x, -, rfl⟩ := hb
  exact ⟨z, y, x, rfl⟩

/-! ## Length and empty-set evaluation of the bake -/

theorem flatMapCongrMem {α β : Type} {l : List α} {f g : α → List β}
    (h : ∀ a ∈ l, f a = g a) : l.flatMap f = l.flatMap g := by
  induction l with
  | nil => rfl
  | cons x xs ih =>
    rw [List.flatMap_cons, List.flatMap_cons, h x (List.mem_cons_self x xs),
      ih fun a ha => h a (List.mem_cons_of_mem x ha)]

theorem flatMap_const_replicate {α : Type} (n m : ℕ) (c : α) :
    ((List.range n).flatMap fun _ => List.replicate m c) = List.replicate (n * m) c := by
  induction n with
  | zero => simp
  | succ k ih =>
    rw [List.range_succ, List.flatMap_append, ih]
    simp [← List.replicate_add, Nat.succ_mul]

theorem bakeData_length (points : List Vec3) (freq : ℝ) :
    (bakeData points freq).length = 32768 := by
  simp [bakeData, List.length_flatMap, Function.comp_def, List.map_const']

theorem minDistOf_nil (p : Vec3) (freq : ℝ) : minDistOf p [] freq = 10 := rfl

theorem densityAt_nil (p : Vec3) (freq : ℝ) : densityAt p [] freq = 0 := by
  unfold densityAt
  rw [minDistOf_nil]
  norm_num

theorem bakedByte_nil (p : Vec3) (freq : ℝ) : bakedByte p [] freq = 0 := by
  unfold bakedByte toU8
  rw [densityAt_nil]
  norm_num

theorem bakeData_nil (freq : ℝ) : bakeData [] freq = List.replicate 32768 0 := by
  unfold bakeData
  have h1 : ∀ z y : ℕ,
      ((List.range 32).map fun x : ℕ =>
        bakedByte ![voxelCoord x, voxelCoord y, voxelCoord z] [] freq) =
      List.replicate 32 0 := by
    intro z y
    rw [show ((List.range 32).map fun x : ℕ =>
        bakedByte ![voxelCoord x, voxelCoord y, voxelCoord z] [] freq) =
        (List.range 32).map fun _ : ℕ => (0 : ℤ) from
      List.map_congr_left fun x _ => bakedByte_nil _ freq]
    simp [List.map_const']
  calc ((List.range 32).flatMap fun z =>
          (List.range 32).flatMap fun y =>
            (List.range 32).map fun x =>
              bakedByte ![voxelCoord x, voxelCoord y, voxelCoord z] [] freq)
      = (List.range 32).flatMap fun _ => List.replicate 1024 (0 : ℤ) := by
        apply flatMapCongrMem
        intro z _
        rw [flatMapCongrMem fun y _ => h1 z y, flatMap_const_replicate]
    _ = List.replicate 32768 0 := by
        rw [flatMap_const_replicate]

theorem genPoints_zero (seed : ℕ) : genPoints seed 0 = [] := rfl

/-! ## Concrete evaluation of the density at one voxel -/

theorem zero_mem_offsets : (![0, 0, 0] : Vec3) ∈ offsets := by
  apply mem_offsets.mpr
  intro i
  fin_cases i <;> simp

theorem cex_dist_middle :
    dist3 ((1 : ℝ) • ![1 / 2, 0, 0]) ((1 : ℝ) • ((![0, 0, 0] : Vec3) + ![0, 0, 0])) = 1 / 2 := by
  rw [one_smul, one_smul]
  unfold dist3
  rw [Fin.sum_univ_three]
  simp only [Pi.add_apply, Matrix.cons_val_zero, Matrix.cons_val_one, Matrix.head_cons,
    Matrix.cons_val_two, Matrix.tail_cons]
  rw [show (1 / 2 - (0 + 0) : ℝ) ^ 2 + (0 - (0 + 0)) ^ 2 + (0 - (0 + 0)) ^ 2
      = (1 / 2 : ℝ) ^ 2 by norm_num]
  rw [Real.sqrt_sq (by norm_num)]

theorem cex_minDist : minDistOf ![1 / 2, 0, 0] [![0, 0, 0]] 1 = 1 / 2 := by
  apply foldlMin_eq_of_least (d := 1 / 2)
  · exact mem_allDists.mpr ⟨![0, 0, 0], by simp, ![0, 0, 0], zero_mem_offsets,
      cex_dist_middle.symm⟩
  · intro x hx
    obtain ⟨q, hq, o, ho, rfl⟩ := mem_allDists.mp hx
    have hq0 : q = ![0, 0, 0] := by simpa using hq
    subst hq0
    have ho' := mem_offsets.mp ho
    rw [one_smul, one_smul]
    unfold dist3
    rw [Fin.sum_univ_three]
    simp only [Pi.add_apply, Matrix.cons_val_zero, Matrix.cons_val_one, Matrix.head_cons,
      Matrix.cons_val_two, Matrix.tail_cons]
    rw [Real.le_sqrt (by norm_num) (by positivity)]
    rcases ho' 0 with h0 | h0 | h0 <;> rcases ho' 1 with h1 | h1 | h1 <;>
      rcases ho' 2 with h2 | h2 | h2 <;> rw [h0, h1, h2] <;> norm_num
  · norm_num

theorem cex_density : densityAt ![1 / 2, 0, 0] [![0, 0, 0]] 1 = 1 / 2 := by
  unfold densityAt
  rw [cex_minDist]
  norm_num

/-! ## Metric toolbox for `dist3` -/

theorem dist3_nonneg (a b : Vec3) : 0 ≤ dist3 a b := Real.sqrt_nonneg _

/-- Bridge to `EuclideanSpace`: `dist3` is the Euclidean metric. -/
noncomputable def toE (v : Vec3) : EuclideanSpace ℝ (Fin 3) :=
  (WithLp.equiv 2 (Fin 3 → ℝ)).symm v

theorem dist3_eq_dist (a b : Vec3) : dist3 a b = dist (toE a) (toE b) := by
  rw [EuclideanSpace.dist_eq]
  unfold dist3
  congr 1
  apply Finset.sum_congr rfl
  intro i _
  rw [toE, toE, WithLp.equiv_symm_pi_apply, WithLp.equiv_symm_pi_apply,
    Real.dist_eq, sq_abs]

theorem dist3_triangle (a b c : Vec3) : dist3 a c ≤ dist3 a b + dist3 b c := by
  rw [dist3_eq_dist, dist3_eq_dist, dist3_eq_dist]
  exact dist_triangle (toE a) (toE b) (toE c)

theorem dist3_comm (a b : Vec3) : dist3 a b = dist3 b a := by
  unfold dist3
  congr 1
  apply Finset.sum_congr rfl
  intro i _
  ring

theorem dist3_smul (c : ℝ) (a b : Vec3) (hc : 0 ≤ c) :
    dist3 (c • a) (c • b) = c * dist3 a b := by
  unfold dist3
  have h : ∑ i, ((c • a) i - (c • b) i) ^ 2 = c ^ 2 * ∑ i, (a i - b i) ^ 2 := by
    rw [Finset.mul_sum]
    apply Finset.sum_congr rfl
    intro i _
    simp only [Pi.smul_apply, smul_eq_mul]
    ring
  rw [h, Real.sqrt_mul (sq_nonneg c), Real.sqrt_sq hc]

theorem dist3_comp_le (a b : Vec3) (i : Fin 3) : |a i - b i| ≤ dist3 a b := by
  unfold dist3
  rw [← Real.sqrt_sq_eq_abs]
  apply Real.sqrt_le_sqrt
  exact Finset.single_le_sum (f := fun j => (a j - b j) ^ 2)
    (fun j _ => sq_nonneg _) (Finset.mem_univ i)

theorem dist3_shift_cancel (p c e : Vec3) (freq : ℝ) :
    dist3 (freq • (p + e)) (freq • (c + e)) = dist3 (freq • p) (freq • c) := by
  unfold dist3
  congr 1
  apply Finset.sum_congr rfl
  intro i _
  simp only [Pi.smul_apply, Pi.add_apply, smul_eq_mul]
  ring

theorem dist3_update (p : Vec3) (a : Fin 3) (x y : ℝ) :
    dist3 (Function.update p a x) (Function.update p a y) = |x - y| := by
  unfold dist3
  rw [show ∑ i, (Function.update p a x i - Function.update p a y i) ^ 2 = (x - y) ^ 2 from ?_,
    Real.sqrt_sq_eq_abs]
  rw [Finset.sum_eq_single a]
  · simp
  · intro b _ hb
    simp [Function.update_noteq hb]
  · intro h
    exact absurd (Finset.mem_univ a) h

theorem one_le_dist3_of_comp {P C : Vec3} {freq : ℝ} (a : Fin 3) (hf : 1 ≤ freq)
    (h : 1 ≤ |P a - C a|) : 1 ≤ dist3 (freq • P) (freq • C) := by
  have h1 : |(freq • P) a - (freq • C) a| ≤ dist3 (freq • P) (freq • C) :=
    dist3_comp_le (freq • P) (freq • C) a
  have h2 : (freq • P) a - (freq • C) a = freq * (P a - C a) := by
    simp only [Pi.smul_apply, smul_eq_mul]
    ring
  have h3 : 1 ≤ |freq * (P a - C a)| := by
    rw [abs_mul, abs_of_nonneg (by linarith : (0 : ℝ) ≤ freq)]
    nlinarith [abs_nonneg (P a - C a)]
  rw [h2] at h1
  linarith

/-! ## The capped minimum reformulation of the density -/

/-- The candidate distances with the `min(·, 1)` cap applied. -/
noncomputable def cappedDists (p : Vec3) (points : List Vec3) (freq : ℝ) : List ℝ :=
  (allDists p points freq).map fun d => min d 1

/-- The value `min(min_dist, 1)` expressed as a fold over the capped
candidates starting at `1`. -/
noncomputable def minField (p : Vec3) (points : List Vec3) (freq : ℝ) : ℝ :=
  (cappedDists p points freq).foldl min 1

theorem mem_cappedDists {p : Vec3} {points : List Vec3} {freq : ℝ} {y : ℝ} :
    y ∈ cappedDists p points freq ↔
      ∃ q ∈ points, ∃ o ∈ offsets, y = min (dist3 (freq • p) (freq • (q + o))) 1 := by
  unfold cappedDists
  rw [List.mem_map]
  constructor
  · rintro ⟨d, hd, rfl⟩
    obtain ⟨q, hq, o, ho, rfl⟩ := mem_allDists.mp hd
    exact ⟨q, hq, o, ho, rfl⟩
  · rintro ⟨q, hq, o, ho, rfl⟩
    exact ⟨_, mem_allDists.mpr ⟨q, hq, o, ho, rfl⟩, rfl⟩

theorem min_foldl_cap (l : List ℝ) :
    min (l.foldl min 10) 1 = (l.map fun d => min d 1).foldl min 1 := by
  apply le_antisymm
  · apply le_foldlMin (min_le_right _ _)
    intro y hy
    obtain ⟨x, hx, rfl⟩ := List.mem_map.mp hy
    exact min_le_min (foldlMin_le_mem 10 hx) le_rfl
  · refine le_min ?_ (foldlMin_le_init 1 _)
    rcases foldlMin_mem 10 l with h | h
    · rw [h]
      exact le_trans (foldlMin_le_init 1 _) (by norm_num)
    · exact le_trans (foldlMin_le_mem 1 (List.mem_map_of_mem _ h)) (min_le_left _ _)

theorem densityAt_eq_minField (p : Vec3) (points : List Vec3) (freq : ℝ) :
    densityAt p points freq = 1 - minField p points freq := by
  unfold densityAt minDistOf minField cappedDists
  rw [min_foldl_cap]

theorem minField_le_one (p : Vec3) (points : List Vec3) (freq : ℝ) :
    minField p points freq ≤ 1 :=
  foldlMin_le_init 1 _

theorem min_cap_le_add {a b D : ℝ} (hD : 0 ≤ D) (h : a ≤ b + D) :
    min a 1 ≤ min b 1 + D := by
  rcases le_total b 1 with hb | hb
  · rw [min_eq_left hb]
    exact le_trans (min_le_left a 1) h
  · rw [min_eq_right hb]
    exact le_trans (min_le_right a 1) (le_add_of_nonneg_right hD)

theorem minField_sub_le (p q : Vec3) (points : List Vec3) (freq : ℝ) :
    minField p points freq ≤ minField q points freq + dist3 (freq • p) (freq • q) := by
  have hD : 0 ≤ dist3 (freq • p) (freq • q) := dist3_nonneg _ _
  have key : minField p points freq - dist3 (freq • p) (freq • q) ≤ minField q points freq := by
    apply le_foldlMin
    · have h1 := minField_le_one p points freq
      linarith
    · intro y hy
      obtain ⟨w, hw, o, ho, rfl⟩ := mem_cappedDists.mp hy
      have h2 : minField p points freq ≤ min (dist3 (freq • p) (freq • (w + o))) 1 :=
        foldlMin_le_mem 1 (mem_cappedDists.mpr ⟨w, hw, o, ho, rfl⟩)
      have h3 : dist3 (freq • p) (freq • (w + o)) ≤
          dist3 (freq • q) (freq • (w + o)) + dist3 (freq • p) (freq • q) := by
        have ht := dist3_triangle (freq • p) (freq • q) (freq • (w + o))
        linarith
      have h4 := min_cap_le_add hD h3
      linarith
  linarith

theorem minField_lipschitz (p q : Vec3) (points : List Vec3) (freq : ℝ)
    (hf : 0 ≤ freq) :
    |minField p points freq - minField q points freq| ≤ freq * dist3 p q := by
  rw [abs_sub_le_iff]
  have h1 := minField_sub_le p q points freq
  have h2 := minField_sub_le q p points freq
  have hsym : dist3 (freq • q) (freq • p) = dist3 (freq • p) (freq • q) :=
    dist3_comm _ _
  have hsc : dist3 (freq • p) (freq • q) = freq * dist3 p q := dist3_smul freq p q hf
  constructor <;> linarith

/-! ## Periodicity of the capped minimum across the unit cell -/

theorem offsets_shift_mem {o : Vec3} (a : Fin 3) (ho : o ∈ offsets)
    (hoa : o a = -1 ∨ o a = 0) : o + Pi.single a 1 ∈ offsets := by
  apply mem_offsets.mpr
  intro i
  have hi := mem_offsets.mp ho i
  rcases eq_or_ne i a with rfl | hne
  · rw [Pi.add_apply, Pi.single_eq_same]
    rcases hoa with h | h <;> rw [h] <;> norm_num
  · rw [Pi.add_apply, Pi.single_eq_of_ne hne, add_zero]
    exact hi

theorem offsets_unshift_mem {o : Vec3} (a : Fin 3) (ho : o ∈ offsets)
    (hoa : o a = 0 ∨ o a = 1) : o - Pi.single a 1 ∈ offsets := by
  apply mem_offsets.mpr
  intro i
  have hi := mem_offsets.mp ho i
  rcases eq_or_ne i a with rfl | hne
  · rw [Pi.sub_apply, Pi.single_eq_same]
    rcases hoa with h | h <;> rw [h] <;> norm_num
  · rw [Pi.sub_apply, Pi.single_eq_of_ne hne, sub_zero]
    exact hi

theorem minField_periodic (p : Vec3) (points : List Vec3) (freq : ℝ) (a : Fin 3)
    (hpts : ∀ q ∈ points, ∀ i, 0 ≤ q i ∧ q i < 1)
    (hf : 1 ≤ freq) (hpa : p a = 0) :
    minField (p + Pi.single a 1) points freq = minField p points freq := by
  apply le_antisymm
  · apply le_foldlMin (minField_le_one _ points freq)
    intro y hy
    obtain ⟨q, hq, o, ho, rfl⟩ := mem_cappedDists.mp hy
    rcases mem_offsets.mp ho a with h | h | h
    · -- `o a ∈ {-1, 0}`: the shifted offset realizes the same distance
      refine le_of_le_of_eq
        (foldlMin_le_mem 1 (mem_cappedDists.mpr
          ⟨q, hq, o + Pi.single a 1, offsets_shift_mem a ho (Or.inl h), rfl⟩)) ?_
      have hc : q + (o + Pi.single a 1) = (q + o) + Pi.single a 1 := by
        rw [add_assoc]
      rw [hc, dist3_shift_cancel]
    · refine le_of_le_of_eq
        (foldlMin_le_mem 1 (mem_cappedDists.mpr
          ⟨q, hq, o + Pi.single a 1, offsets_shift_mem a ho (Or.inr h), rfl⟩)) ?_
      have hc : q + (o + Pi.single a 1) = (q + o) + Pi.single a 1 := by
        rw [add_assoc]
      rw [hc, dist3_shift_cancel]
    · -- `o a = 1`: this candidate is at distance at least `1`, capped to `1`
      have hq1 := (hpts q hq a).1
      have habs : 1 ≤ |p a - (q + o) a| := by
        rw [Pi.add_apply, hpa, h]
        rw [abs_of_nonpos (by linarith)]
        linarith
      have hd1 : 1 ≤ dist3 (freq • p) (freq • (q + o)) :=
        one_le_dist3_of_comp a hf habs
      rw [min_eq_right hd1]
      exact minField_le_one _ points freq
  · apply le_foldlMin (minField_le_one _ points freq)
    intro y hy
    obtain ⟨q, hq, o, ho, rfl⟩ := mem_cappedDists.mp hy
    rcases mem_offsets.mp ho a with h | h | h
    · -- `o a = -1`: the wrapped candidate is at distance at least `1`
      have hq1 := (hpts q hq a).2
      have habs : 1 ≤ |(p + Pi.single a 1 : Vec3) a - (q + o) a| := by
        rw [Pi.add_apply, Pi.add_apply, Pi.single_eq_same, hpa, h]
        rw [abs_of_nonneg (by linarith)]
        linarith
      have hd1 : 1 ≤ dist3 (freq • (p + Pi.single a 1)) (freq • (q + o)) :=
        one_le_dist3_of_comp a hf habs
      rw [min_eq_right hd1]
      exact minField_le_one _ points freq
    · -- `o a ∈ {0, 1}`: the unshifted offset realizes the same distance
      refine le_of_le_of_eq
        (foldlMin_le_mem 1 (mem_cappedDists.mpr
          ⟨q, hq, o - Pi.single a 1, offsets_unshift_mem a ho (Or.inl h), rfl⟩)) ?_
      have hc : q + o = (q + (o - Pi.single a 1)) + Pi.single a 1 := by
        rw [add_assoc, sub_add_cancel]
      rw [hc, dist3_shift_cancel]
    · refine le_of_le_of_eq
        (foldlMin_le_mem 1 (mem_cappedDists.mpr
          ⟨q, hq, o - Pi.single a 1, offsets_unshift_mem a ho (Or.inr h), rfl⟩)) ?_
      have hc : q + o = (q + (o - Pi.single a 1)) + Pi.single a 1 := by
        rw [add_assoc, sub_add_cancel]
      rw [hc, dist3_shift_cancel]

theorem update_add_single (p : Vec3) (a : Fin 3) :
    Function.update p a 0 + Pi.single a 1 = Function.update p a 1 := by
  funext i
  rcases eq_or_ne i a with rfl | hne
  · rw [Pi.add_apply, Function.update_same, Function.update_same, Pi.single_eq_same,
      zero_add]
  · rw [Pi.add_apply, Function.update_noteq hne, Function.update_noteq hne,
      Pi.single_eq_of_ne hne, add_zero]

theorem neg_one_mem_offsets : (![-1, -1, -1] : Vec3) ∈ offsets := by
  apply mem_offsets.mpr
  intro i
  fin_cases i <;> simp

theorem allDists_ne_nil (p : Vec3) (freq : ℝ) {points : List Vec3}
    (hne : points ≠ []) : allDists p points freq ≠ [] := by
  obtain ⟨q, hq⟩ := List.exists_mem_of_ne_nil points hne
  exact List.ne_nil_of_mem
    (mem_allDists.mpr ⟨q, hq, ![-1, -1, -1], neg_one_mem_offsets, rfl⟩)

/-! ## Claim theorems: bake determinism, quantization, empty set, ranges -/

/-- C1: for every valid set of generation parameters (seed, frequency,
feature-point count), running the bake twice yields bit-identical noise
volumes: the feature points come from a deterministic seeded stream, so
identical parameters always produce an identical 32^3 = 32768-byte
buffer. -/
theorem bake_deterministic (s1 s2 c1 c2 : ℕ) (f1 f2 : ℝ)
    (hs : s1 = s2) (hf : f1 = f2) (hc : c1 = c2) :
    genPoints s1 c1 = genPoints s2 c2 ∧
    bakeVolume s1 f1 c1 = bakeVolume s2 f2 c2 ∧
    (bakeVolume s1 f1 c1).length = 32768 := by
  subst hs; subst hf; subst hc
  exact ⟨rfl, rfl, bakeData_length _ _⟩

theorem bake_deterministic_witness :
    (1 : ℕ) = 1 ∧ (4 : ℝ) = 4 ∧ (16 : ℕ) = 16 ∧
    (genPoints 1 16 = genPoints 1 16 ∧ bakeVolume 1 4 16 = bakeVolume 1 4 16 ∧
      (bakeVolume 1 4 16).length = 32768) :=
  ⟨rfl, rfl, rfl, bake_deterministic 1 1 16 16 4 4 rfl rfl rfl⟩

/-- C2 (amended): the stored byte is the saturating truncation of
`density * 255` — since the density lies in `[0,1]`, it equals
`⌊density * 255⌋` — not round-to-nearest as the claim states. -/
theorem quantization_floor (p : Vec3) (points : List Vec3) (freq : ℝ) :
    bakedByte p points freq = ⌊densityAt p points freq * 255⌋ := by
  unfold bakedByte toU8
  have h0 : (0 : ℝ) ≤ densityAt p points freq * 255 :=
    mul_nonneg (densityAt_nonneg p points freq) (by norm_num)
  have h1 : densityAt p points freq * 255 ≤ 255 := by
    have := densityAt_le_one p points freq
    nlinarith
  have hf0 : (0 : ℤ) ≤ ⌊densityAt p points freq * 255⌋ := Int.floor_nonneg.mpr h0
  have hf1 : ⌊densityAt p points freq * 255⌋ ≤ 255 := by
    have h := Int.floor_le_floor (α := ℝ) h1
    simpa using h
  rw [max_eq_right hf0, min_eq_right hf1]

/-- C2 counterexample: at the bake voxel `(16, 0, 0)` (normalized sample
`(1/2, 0, 0)`) with the single feature point at the origin and frequency
1, the density is exactly `1/2`, so `density * 255 = 127.5`: the code
stores `127` (truncation) while `round(density * 255) = 128`. -/
theorem quantization_not_round :
    voxelCoord 16 = 1 / 2 ∧
    bakedByte ![1 / 2, 0, 0] [![0, 0, 0]] 1 = 127 ∧
    round (densityAt ![1 / 2, 0, 0] [![0, 0, 0]] 1 * 255) = 128 ∧
    bakedByte ![1 / 2, 0, 0] [![0, 0, 0]] 1 ≠
      round (densityAt ![1 / 2, 0, 0] [![0, 0, 0]] 1 * 255) := by
  have hv : voxelCoord 16 = 1 / 2 := by unfold voxelCoord; norm_num
  have hb : bakedByte ![1 / 2, 0, 0] [![0, 0, 0]] 1 = 127 := by
    unfold bakedByte toU8
    rw [cex_density]
    rw [show (1 / 2 : ℝ) * 255 = 127.5 by norm_num]
    rw [show ⌊(127.5 : ℝ)⌋ = 127 from Int.floor_eq_iff.mpr (by norm_num)]
    norm_num
  have hr : round (densityAt ![1 / 2, 0, 0] [![0, 0, 0]] 1 * 255) = 128 := by
    rw [cex_density]
    rw [show (1 / 2 : ℝ) * 255 = 127.5 by norm_num]
    rw [round_eq]
    rw [show (127.5 : ℝ) + 1 / 2 = 128 by norm_num]
    rw [show ((128 : ℝ)) = ((128 : ℤ) : ℝ) by norm_num]
    exact Int.floor_intCast 128
  exact ⟨hv, hb, hr, by rw [hb, hr]; norm_num⟩

/-- C5: with `featurePointCount = 0` the bake is total and produces the
all-zero 32768-byte volume, every density evaluating to 0. -/
theorem empty_points_zero_volume (seed : ℕ) (freq : ℝ) :
    bakeVolume seed freq 0 = List.replicate 32768 0 ∧
    ∀ p : Vec3, densityAt p (genPoints seed 0) freq = 0 := by
  constructor
  · rw [bakeVolume, genPoints_zero, bakeData_nil]
  · intro p
    rw [genPoints_zero]
    exact densityAt_nil p freq

/-- C6: every density computed before quantization lies in `[0,1]`, and
every byte of any produced volume lies in `[0,255]` (the float-to-byte
conversion saturates and cannot overflow). -/
theorem range_invariant :
    (∀ (p : Vec3) (points : List Vec3) (freq : ℝ),
      0 ≤ densityAt p points freq ∧ densityAt p points freq ≤ 1) ∧
    (∀ (points : List Vec3) (freq : ℝ) (b : ℤ),
      b ∈ bakeData points freq → 0 ≤ b ∧ b ≤ 255) := by
  constructor
  · intro p points freq
    exact ⟨densityAt_nonneg p points freq, densityAt_le_one p points freq⟩
  · intro points freq b hb
    obtain ⟨z, y, x, rfl⟩ := mem_bakeData hb
    exact ⟨toU8_nonneg _, toU8_le _⟩

/-- C4: for every sample position and every non-empty feature-point set,
the computed density equals `1 - min(d, 1)` where `d` is the global
minimum, over every feature point and every offset in `{-1,0,1}^3`, of
the Euclidean distance from `p * frequency` to
`(point + offset) * frequency` — the `10.0` initializer of the
accumulator never distorts the result. -/
theorem density_formula (p : Vec3) (points : List Vec3) (freq : ℝ)
    (hne : points ≠ []) :
    ∃ d ∈ allDists p points freq,
      (∀ x ∈ allDists p points freq, d ≤ x) ∧
      densityAt p points freq = 1 - min d 1 := by
  obtain ⟨d, hd, hle⟩ := exists_list_min _ (allDists_ne_nil p freq hne)
  refine ⟨d, hd, hle, ?_⟩
  unfold densityAt minDistOf
  have heq : min ((allDists p points freq).foldl min 10) 1 = min d 1 := by
    apply le_antisymm
    · exact min_le_min (foldlMin_le_mem 10 hd) le_rfl
    · refine le_min ?_ (min_le_right d 1)
      refine le_foldlMin (le_trans (min_le_right d 1) (by norm_num)) ?_
      intro x hx
      exact le_trans (min_le_left d 1) (hle x hx)
  rw [heq]

theorem density_formula_witness :
    ([![0, 0, 0]] : List Vec3) ≠ [] ∧
    ∃ d ∈ allDists ![1 / 2, 0, 0] [![0, 0, 0]] 1,
      (∀ x ∈ allDists ![1 / 2, 0, 0] [![0, 0, 0]] 1, d ≤ x) ∧
      densityAt ![1 / 2, 0, 0] [![0, 0, 0]] 1 = 1 - min d 1 :=
  ⟨List.cons_ne_nil _ _, density_formula ![1 / 2, 0, 0] [![0, 0, 0]] 1 (List.cons_ne_nil _ _)⟩

/-- C3: for every fixed non-empty feature-point set (with coordinates in
`[0,1)`) and every frequency in the UI range `[1,10]`, the density at a
point at distance `dlt` inside one face of the unit cell along any axis
and at the point at distance `dlt` inside the opposite face differ by at
most `2 * freq * dlt`, an epsilon that vanishes as the points approach
the faces: the field is seamless across the tiling boundary. -/
theorem tiling_continuity (p : Vec3) (points : List Vec3) (freq dlt : ℝ)
    (a : Fin 3) (hne : points ≠ [])
    (hpts : ∀ q ∈ points, ∀ i, 0 ≤ q i ∧ q i < 1)
    (hf1 : 1 ≤ freq) (hf10 : freq ≤ 10) (hd : 0 ≤ dlt) :
    |densityAt (Function.update p a dlt) points freq -
      densityAt (Function.update p a (1 - dlt)) points freq| ≤ 2 * freq * dlt := by
  rw [densityAt_eq_minField, densityAt_eq_minField]
  have hflip : (1 - minField (Function.update p a dlt) points freq) -
      (1 - minField (Function.update p a (1 - dlt)) points freq) =
      minField (Function.update p a (1 - dlt)) points freq -
      minField (Function.update p a dlt) points freq := by
    ring
  rw [hflip]
  have hf0 : (0 : ℝ) ≤ freq := by linarith
  have hL1 : |minField (Function.update p a dlt) points freq -
      minField (Function.update p a 0) points freq| ≤ freq * dlt := by
    have h := minField_lipschitz (Function.update p a dlt)
      (Function.update p a 0) points freq hf0
    rw [dist3_update] at h
    rw [show |dlt - 0| = dlt from by rw [sub_zero, abs_of_nonneg hd]] at h
    exact h
  have hper : minField (Function.update p a 0 + Pi.single a 1) points freq =
      minField (Function.update p a 0) points freq :=
    minField_periodic (Function.update p a 0) points freq a hpts hf1
      (Function.update_same a 0 p)
  have h01 : minField (Function.update p a 1) points freq =
      minField (Function.update p a 0) points freq := by
    rw [← update_add_single p a, hper]
  have hL2 : |minField (Function.update p a 1) points freq -
      minField (Function.update p a (1 - dlt)) points freq| ≤ freq * dlt := by
    have h := minField_lipschitz (Function.update p a 1)
      (Function.update p a (1 - dlt)) points freq hf0
    rw [dist3_update] at h
    rw [show |1 - (1 - dlt)| = dlt from by rw [show (1 : ℝ) - (1 - dlt) = dlt by ring,
      abs_of_nonneg hd]] at h
    exact h
  have htri : |minField (Function.update p a (1 - dlt)) points freq -
      minField (Function.update p a dlt) points freq| ≤
      |minField (Function.update p a (1 - dlt)) points freq -
        minField (Function.update p a 1) points freq| +
      |minField (Function.update p a 1) points freq -
        minField (Function.update p a dlt) points freq| :=
    abs_sub_le _ _ _
  rw [← h01] at hL1
  have e1 : |minField (Function.update p a (1 - dlt)) points freq -
      minField (Function.update p a 1) points freq| =
      |minField (Function.update p a 1) points freq -
        minField (Function.update p a (1 - dlt)) points freq| :=
    abs_sub_comm _ _
  have e2 : |minField (Function.update p a 1) points freq -
      minField (Function.update p a dlt) points freq| =
      |minField (Function.update p a dlt) points freq -
        minField (Function.update p a 1) points freq| :=
    abs_sub_comm _ _
  rw [e1, e2] at htri
  linarith

theorem tiling_continuity_witness :
    ([![0, 0, 0]] : List Vec3) ≠ [] ∧
    (∀ q ∈ ([![0, 0, 0]] : List Vec3), ∀ i, 0 ≤ q i ∧ q i < 1) ∧
    ((1 : ℝ) ≤ 1 ∧ (1 : ℝ) ≤ 10 ∧ (0 : ℝ) ≤ 0) ∧
    |densityAt (Function.update ![0, 0, 0] 0 0) [![0, 0, 0]] 1 -
      densityAt (Function.update ![0, 0, 0] 0 (1 - 0)) [![0, 0, 0]] 1| ≤ 2 * 1 * 0 := by
  have hpts : ∀ q ∈ ([![0, 0, 0]] : List Vec3), ∀ i, 0 ≤ q i ∧ q i < 1 := by
    intro q hq i
    have hq0 : q = ![0, 0, 0] := by simpa using hq
    subst hq0
    fin_cases i <;> norm_num
  exact ⟨List.cons_ne_nil _ _, hpts, ⟨le_refl 1, by norm_num, le_refl 0⟩,
    tiling_continuity ![0, 0, 0] [![0, 0, 0]] 1 0 0 (List.cons_ne_nil _ _) hpts
      (le_refl 1) (by norm_num) (le_refl 0)⟩

theorem range_invariant_witness :
    (0 : ℤ) ∈ bakeData [] 1 ∧ ((0 : ℤ) ≤ 0 ∧ (0 : ℤ) ≤ 255) := by
  have hm : (0 : ℤ) ∈ bakeData [] 1 := by
    rw [bakeData_nil, List.mem_replicate]
    exact ⟨by norm_num, rfl⟩
  exact ⟨hm, range_invariant.2 [] 1 0 hm⟩

/-! ## The `CloudSettings` resource and the per-tick systems -/

/-- The sRGB-to-linear transfer applied by `LinearRgba::from(settings.color)`
(a conversion performed by the external bevy color library). -/
noncomputable def srgbToLinear (c : ℝ) : ℝ :=
  if c ≤ 0.04045 then c / 12.92 else ((c + 0.055) / 1.055) ^ (2.4 : ℝ)

/-- The `CloudSettings` resource (the `noise_handle` field is represented
by the world's single image slot below). -/
structure CloudSettings where
  color : Fin 3 → ℝ
  densityMultiplier : ℝ
  threshold : ℝ
  absorption : ℝ
  steps : ℕ
  seed : ℕ
  frequency : ℝ
  cellCount : ℕ
  needsRebuild : Bool

/-- The values assigned both by `FromWorld for CloudSettings` and by the
Reset button. -/
noncomputable def defaultSettings : CloudSettings where
  color := ![0.9, 0.9, 1.0]
  densityMultiplier := 2
  threshold := 0.2
  absorption := 3
  steps := 16
  seed := 1
  frequency := 4
  cellCount := 16
  needsRebuild := true

/-- The `CloudMaterialUniform`: linear color plus the
`Vec4(density, threshold, absorption, steps as f32)` settings vector. -/
structure CloudMaterialUniform where
  color : Fin 3 → ℝ
  settingsVec : ℝ × ℝ × ℝ × ℝ

/-- The uniform built from the current settings (used by `setup` and by
the material loop of `update_material_system`). -/
noncomputable def materialOf (s : CloudSettings) : CloudMaterialUniform where
  color := fun i => srgbToLinear (s.color i)
  settingsVec := (s.densityMultiplier, s.threshold, s.absorption, (s.steps : ℝ))

/-- The world state visible to the two systems: the settings resource,
the noise image asset slot (`None` models `Assets::get_mut` failing),
and the material uniform. -/
structure WorldState where
  settings : CloudSettings
  imageData : Option (List ℤ)
  material : CloudMaterialUniform

/-- One user interaction with the egui panel. -/
inductive UiAction where
  | setDensityMultiplier (v : ℝ)
  | setThreshold (v : ℝ)
  | setAbsorption (v : ℝ)
  | setSteps (v : ℕ)
  | setSeed (v : ℕ)
  | setFrequency (v : ℝ)
  | setCellCount (v : ℕ)
  | reset

/-- Slider clamping to `lo..=hi` (egui clamps dragged values). -/
def clampN (lo hi v : ℕ) : ℕ := max lo (min hi v)

/-- Slider clamping to `lo..=hi` for float sliders. -/
noncomputable def clampR (lo hi v : ℝ) : ℝ := max lo (min hi v)

/-- The `ui_system` panel: the three generation sliders set `needs_rebuild` exactly
when `.changed()` (the value actually changed); the four display sliders
never touch the flag; Reset restores all defaults including
`needs_rebuild = true`. -/
noncomputable def applyAction (s : CloudSettings) : UiAction → CloudSettings
  | .setDensityMultiplier v => { s with densityMultiplier := clampR 0 10 v }
  | .setThreshold v => { s with threshold := clampR 0 1 v }
  | .setAbsorption v => { s with absorption := clampR 0 10 v }
  | .setSteps v => { s with steps := clampN 4 64 v }
  | .setSeed v =>
    { s with seed := clampN 0 100 v,
             needsRebuild := if clampN 0 100 v = s.seed then s.needsRebuild else true }
  | .setFrequency v =>
    { s with frequency := clampR 1 10 v,
             needsRebuild := if clampR 1 10 v = s.frequency then s.needsRebuild else true }
  | .setCellCount v =>
    { s with cellCount := clampN 4 64 v,
             needsRebuild := if clampN 4 64 v = s.cellCount then s.needsRebuild else true }
  | .reset => defaultSettings

/-- The bake invoked with the current generation parameters. -/
noncomputable def bakeOf (s : CloudSettings) : List ℤ :=
  bakeVolume s.seed s.frequency s.cellCount

/-- The rebuild block of `update_material_system`: if the flag is set and
the image asset can be retrieved, replace the volume with a fresh bake
and clear the flag; otherwise leave the world unchanged. -/
noncomputable def runRebuild (w : WorldState) : WorldState :=
  if w.settings.needsRebuild then
    match w.imageData with
    | some _ =>
      { w with imageData := some (bakeOf w.settings),
               settings := { w.settings with needsRebuild := false } }
    | none => w
  else w

/-- The material loop of `update_material_system`: unconditionally push
the current display parameters into the material uniform. -/
noncomputable def syncMaterial (w : WorldState) : WorldState :=
  { w with material := materialOf w.settings }

/-- The whole `update_material_system`: the conditional rebuild followed
by the unconditional material synchronisation. -/
noncomputable def updateMaterial (w : WorldState) : WorldState :=
  syncMaterial (runRebuild w)

/-- The startup state: default settings, the image slot filled with the
`new_fill &[0]` sentinel volume, the material built by `setup`. -/
noncomputable def initialWorld : WorldState where
  settings := defaultSettings
  imageData := some (List.replicate 32768 0)
  material := materialOf defaultSettings

/-- States reachable from startup by any interleaving of panel
interactions and `update_material_system` ticks. -/
inductive Reachable : WorldState → Prop
  | init : Reachable initialWorld
  | ui {w : WorldState} (a : UiAction) : Reachable w →
      Reachable { w with settings := applyAction w.settings a }
  | update {w : WorldState} : Reachable w → Reachable (updateMaterial w)

/-- The freshness invariant: a clean flag means the live volume was baked
from the current generation parameters. -/
def VolumeFresh (w : WorldState) : Prop :=
  w.settings.needsRebuild = false → w.imageData = some (bakeOf w.settings)

/-- A panel interaction that leaves the flag clean neither had it set
before nor changed any generation parameter the bake reads. -/
theorem applyAction_clean {s : CloudSettings} (a : UiAction)
    (hf : (applyAction s a).needsRebuild = false) :
    s.needsRebuild = false ∧ bakeOf (applyAction s a) = bakeOf s := by
  cases a with
  | setDensityMultiplier v => exact ⟨hf, rfl⟩
  | setThreshold v => exact ⟨hf, rfl⟩
  | setAbsorption v => exact ⟨hf, rfl⟩
  | setSteps v => exact ⟨hf, rfl⟩
  | setSeed v =>
    by_cases hc : clampN 0 100 v = s.seed
    · refine ⟨?_, ?_⟩
      · have h := hf
        simp only [applyAction, if_pos hc] at h
        exact h
      · show bakeVolume (clampN 0 100 v) s.frequency s.cellCount =
          bakeVolume s.seed s.frequency s.cellCount
        rw [hc]
    · simp only [applyAction, if_neg hc] at hf
      exact Bool.noConfusion hf
  | setFrequency v =>
    by_cases hc : clampR 1 10 v = s.frequency
    · refine ⟨?_, ?_⟩
      · have h := hf
        simp only [applyAction, if_pos hc] at h
        exact h
      · show bakeVolume s.seed (clampR 1 10 v) s.cellCount =
          bakeVolume s.seed s.frequency s.cellCount
        rw [hc]
    · simp only [applyAction, if_neg hc] at hf
      exact Bool.noConfusion hf
  | setCellCount v =>
    by_cases hc : clampN 4 64 v = s.cellCount
    · refine ⟨?_, ?_⟩
      · have h := hf
        simp only [applyAction, if_pos hc] at h
        exact h
      · show bakeVolume s.seed s.frequency (clampN 4 64 v) =
          bakeVolume s.seed s.frequency s.cellCount
        rw [hc]
    · simp only [applyAction, if_neg hc] at hf
      exact Bool.noConfusion hf
  | reset =>
    simp only [applyAction, defaultSettings] at hf
    exact Bool.noConfusion hf

theorem volumeFresh_reachable (w : WorldState) (h : Reachable w) : VolumeFresh w := by
  induction h with
  | init =>
    intro hfalse
    have hcontra : (true : Bool) = false := hfalse
    exact Bool.noConfusion hcontra
  | ui a _ ih =>
    intro hf
    obtain ⟨h1, h2⟩ := applyAction_clean a hf
    show _ = some (bakeOf (applyAction _ a))
    rw [h2]
    exact ih h1
  | update _ ih =>
    rename_i w _
    intro hf
    by_cases hflag : w.settings.needsRebuild = true
    · cases himg : w.imageData with
      | some v =>
        unfold updateMaterial runRebuild syncMaterial at hf ⊢
        rw [if_pos hflag, himg] at hf ⊢
        rfl
      | none =>
        unfold updateMaterial runRebuild syncMaterial at hf
        rw [if_pos hflag, himg] at hf
        rw [hflag] at hf
        exact Bool.noConfusion hf
    · have hfl : w.settings.needsRebuild = false := by
        simpa using hflag
      unfold updateMaterial runRebuild syncMaterial at hf ⊢
      rw [if_neg hflag] at hf ⊢
      exact ih hf

/-! ## Claim theorems: the rebuild coordinator and parameter sync -/

/-- C7: on every tick on which the dirty flag is set (and the noise image
asset is retrievable, as it always is after startup), exactly one bake
runs synchronously with the current generation parameters, wholly
replacing the live volume, and the flag transitions to clean; and for
every reachable state, a clean flag implies the live volume was produced
from the current generation parameters. -/
theorem dirty_bake_invariant :
    (∀ (w : WorldState) (v : List ℤ), w.settings.needsRebuild = true →
      w.imageData = some v →
      (updateMaterial w).imageData = some (bakeOf w.settings) ∧
      (updateMaterial w).settings.needsRebuild = false) ∧
    (∀ w : WorldState, Reachable w → w.settings.needsRebuild = false →
      w.imageData = some (bakeOf w.settings)) := by
  constructor
  · intro w v hflag himg
    unfold updateMaterial runRebuild syncMaterial
    rw [if_pos hflag, himg]
    exact ⟨rfl, rfl⟩
  · exact fun w hr => volumeFresh_reachable w hr

theorem dirty_bake_invariant_witness :
    (initialWorld.settings.needsRebuild = true ∧
      initialWorld.imageData = some (List.replicate 32768 0) ∧
      (updateMaterial initialWorld).imageData = some (bakeOf initialWorld.settings) ∧
      (updateMaterial initialWorld).settings.needsRebuild = false) ∧
    (Reachable (updateMaterial initialWorld) ∧
      (updateMaterial initialWorld).settings.needsRebuild = false ∧
      (updateMaterial initialWorld).imageData =
        some (bakeOf (updateMaterial initialWorld).settings)) := by
  have h1 : initialWorld.settings.needsRebuild = true := rfl
  have h2 : initialWorld.imageData = some (List.replicate 32768 0) := rfl
  have hmain := dirty_bake_invariant
  have hbake := hmain.1 initialWorld (List.replicate 32768 0) h1 h2
  exact ⟨⟨h1, h2, hbake.1, hbake.2⟩,
    ⟨Reachable.update Reachable.init, hbake.2,
      hmain.2 (updateMaterial initialWorld) (Reachable.update Reachable.init) hbake.2⟩⟩

/-- C8: every effective edit (value change) of a generation parameter —
seed, frequency, featurePointCount — and the reset action set the dirty
flag regardless of its previous value, while edits to display
parameters (density multiplier, threshold, absorption, steps) never
modify it. -/
theorem param_edits_dirty (s : CloudSettings) :
    (∀ v : ℕ, clampN 0 100 v ≠ s.seed →
      (applyAction s (UiAction.setSeed v)).needsRebuild = true) ∧
    (∀ v : ℝ, clampR 1 10 v ≠ s.frequency →
      (applyAction s (UiAction.setFrequency v)).needsRebuild = true) ∧
    (∀ v : ℕ, clampN 4 64 v ≠ s.cellCount →
      (applyAction s (UiAction.setCellCount v)).needsRebuild = true) ∧
    (applyAction s UiAction.reset).needsRebuild = true ∧
    (∀ v : ℝ, (applyAction s (UiAction.setDensityMultiplier v)).needsRebuild =
      s.needsRebuild) ∧
    (∀ v : ℝ, (applyAction s (UiAction.setThreshold v)).needsRebuild =
      s.needsRebuild) ∧
    (∀ v : ℝ, (applyAction s (UiAction.setAbsorption v)).needsRebuild =
      s.needsRebuild) ∧
    (∀ v : ℕ, (applyAction s (UiAction.setSteps v)).needsRebuild =
      s.needsRebuild) := by
  refine ⟨?_, ?_, ?_, rfl, fun v => rfl, fun v => rfl, fun v => rfl, fun v => rfl⟩
  · intro v hv
    simp only [applyAction, if_neg hv]
  · intro v hv
    simp only [applyAction, if_neg hv]
  · intro v hv
    simp only [applyAction, if_neg hv]

theorem param_edits_dirty_witness :
    (clampN 0 100 2 ≠ defaultSettings.seed ∧
      (applyAction defaultSettings (UiAction.setSeed 2)).needsRebuild = true) ∧
    (clampR 1 10 2 ≠ defaultSettings.frequency ∧
      (applyAction defaultSettings (UiAction.setFrequency 2)).needsRebuild = true) ∧
    (clampN 4 64 8 ≠ defaultSettings.cellCount ∧
      (applyAction defaultSettings (UiAction.setCellCount 8)).needsRebuild = true) := by
  have h1 : clampN 0 100 2 ≠ defaultSettings.seed := by decide
  have h2 : clampR 1 10 2 ≠ defaultSettings.frequency := by
    show max 1 (min 10 2) ≠ (4 : ℝ)
    rw [min_eq_right (by norm_num : (2 : ℝ) ≤ 10),
      max_eq_right (by norm_num : (1 : ℝ) ≤ 2)]
    norm_num
  have h3 : clampN 4 64 8 ≠ defaultSettings.cellCount := by decide
  exact ⟨⟨h1, (param_edits_dirty defaultSettings).1 2 h1⟩,
    ⟨h2, (param_edits_dirty defaultSettings).2.1 2 h2⟩,
    ⟨h3, (param_edits_dirty defaultSettings).2.2.1 8 h3⟩⟩

/-- C9: on every tick, independently of whether a rebuild occurred or of
the dirty flag's state, the current display parameters (color, density
multiplier, threshold, absorption, steps) are copied unconditionally
into the material uniform read by the rendering consumer. -/
theorem render_param_sync (w : WorldState) :
    (updateMaterial w).material.color =
      (fun i => srgbToLinear (w.settings.color i)) ∧
    (updateMaterial w).material.settingsVec =
      (w.settings.densityMultiplier, w.settings.threshold, w.settings.absorption,
        (w.settings.steps : ℝ)) := by
  unfold updateMaterial runRebuild syncMaterial materialOf
  by_cases hflag : w.settings.needsRebuild = true
  · cases himg : w.imageData with
    | some v =>
      rw [if_pos hflag]
      exact ⟨rfl, rfl⟩
    | none =>
      rw [if_pos hflag]
      exact ⟨rfl, rfl⟩
  · rw [if_neg hflag]
    exact ⟨rfl, rfl⟩

/-- C10: if the dirty flag is set but the noise image asset cannot be
retrieved, the tick leaves the flag set and the image slot unchanged (the
bake is retried later); the flag is only ever cleared by a tick that
wrote a complete bake of the current parameters, and panel interactions
never clear it. -/
theorem missing_asset_retry :
    (∀ w : WorldState, w.settings.needsRebuild = true → w.imageData = none →
      (updateMaterial w).settings.needsRebuild = true ∧
      (updateMaterial w).imageData = none) ∧
    (∀ w : WorldState, (updateMaterial w).settings.needsRebuild = false →
      w.settings.needsRebuild = false ∨
        (updateMaterial w).imageData = some (bakeOf w.settings)) ∧
    (∀ (s : CloudSettings) (a : UiAction), s.needsRebuild = true →
      (applyAction s a).needsRebuild = true) := by
  refine ⟨?_, ?_, ?_⟩
  · intro w hflag himg
    unfold updateMaterial runRebuild syncMaterial
    rw [if_pos hflag, himg]
    exact ⟨hflag, himg⟩
  · intro w hf
    by_cases hflag : w.settings.needsRebuild = true
    · cases himg : w.imageData with
      | some v =>
        right
        unfold updateMaterial runRebuild syncMaterial
        rw [if_pos hflag, himg]
      | none =>
        unfold updateMaterial runRebuild syncMaterial at hf
        rw [if_pos hflag, himg] at hf
        rw [hflag] at hf
        exact Bool.noConfusion hf
    · left
      simpa using hflag
  · intro s a hflag
    cases a with
    | setDensityMultiplier v => exact hflag
    | setThreshold v => exact hflag
    | setAbsorption v => exact hflag
    | setSteps v => exact hflag
    | setSeed v =>
      show (if clampN 0 100 v = s.seed then s.needsRebuild else true) = true
      split
      · exact hflag
      · rfl
    | setFrequency v =>
      show (if clampR 1 10 v = s.frequency then s.needsRebuild else true) = true
      split
      · exact hflag
      · rfl
    | setCellCount v =>
      show (if clampN 4 64 v = s.cellCount then s.needsRebuild else true) = true
      split
      · exact hflag
      · rfl
    | reset => rfl

theorem missing_asset_retry_witness :
    (({ initialWorld with imageData := none } : WorldState).settings.needsRebuild = true ∧
      ({ initialWorld with imageData := none } : WorldState).imageData = none ∧
      (updateMaterial { initialWorld with imageData := none }).settings.needsRebuild = true ∧
      (updateMaterial { initialWorld with imageData := none }).imageData = none) ∧
    ((updateMaterial initialWorld).settings.needsRebuild = false ∧
      (initialWorld.settings.needsRebuild = false ∨
        (updateMaterial initialWorld).imageData = some (bakeOf initialWorld.settings))) ∧
    (defaultSettings.needsRebuild = true ∧
      (applyAction defaultSettings (UiAction.setThreshold 0)).needsRebuild = true) := by
  have hmain := missing_asset_retry
  have hretry := hmain.1 { initialWorld with imageData := none } rfl rfl
  have hclean : (updateMaterial initialWorld).settings.needsRebuild = false := rfl
  exact ⟨⟨rfl, rfl, hretry.1, hretry.2⟩,
    ⟨hclean, hmain.2.1 initialWorld hclean⟩,
    ⟨rfl, hmain.2.2 defaultSettings (UiAction.setThreshold 0) rfl⟩⟩

end BevyClouds
